import Mathlib

/-!
Verification development for the recorder-transcriber server.

The Python source is shallowly embedded: pure numeric helpers become
functions over `ℚ`/`ℤ`, the stateful adapters and the listener loop become
explicit state-passing functions, and the external ML detectors (Silero
VAD, OpenWakeWord, the STT model) are treated as oracles whose answers are
inputs to the embedded code.  Audio sample buffers are modelled as
`List ℚ` (the mono-float32 view); frames carry their hub-assigned
sequence number and payload.
-/

set_option maxHeartbeats 1000000
set_option maxRecDepth 8000

/-- Audio frame as used by the listener: the hub-assigned sequence number
and the mono-float32 payload (`AudioFrame` in `domain/models.py`; the
format and timestamp fields play no role in the verified logic). -/
structure Frame where
  sequence : Nat
  data : List ℚ
deriving Repr, DecidableEq

/-! ## Silero VAD adapter (`adapters/audio/silerovad.py`)

The adapter keeps a deque of pending sample arrays plus a running sample
count, and hands the underlying detector successive 512-sample chunks.
`_SILERO_FRAME_SIZE = 512`. -/

def sileroFrameSize : Nat := 512

/-- Successive 512-sample chunks of a sample stream together with the
retained remainder.  This is the net effect of the `while` loop in
`SileroVadAdapter._emit_chunks`: each iteration concatenates the whole
deque, removes the first 512 samples as a chunk and keeps the rest. -/
def chunksOf (l : List ℚ) : List (List ℚ) × List ℚ :=
  if h : sileroFrameSize ≤ l.length then
    let rest := chunksOf (l.drop sileroFrameSize)
    (l.take sileroFrameSize :: rest.1, rest.2)
  else ([], l)
termination_by l.length
decreasing_by
  simp only [List.length_drop, sileroFrameSize]
  simp [sileroFrameSize] at h
  omega

/-- State of `SileroVadAdapter`: the internal deque `_buffer`, the counter
`_buffer_samples`, and the number of detector invocations made so far
(the position of the stateful Silero model in the chunk stream, used to
index the detector oracle). -/
structure SileroVad where
  buffer : List (List ℚ)
  bufferSamples : Nat
  chunkCount : Nat
deriving Repr, DecidableEq

/-- Initial adapter state (empty buffer, as after `reset`). -/
def sileroInit : SileroVad := ⟨[], 0, 0⟩

/-- Embeds `_emit_chunks`: while `_buffer_samples >= 512`, concatenate the
deque, yield the first 512 samples, retain the remainder.  When the guard
fails the deque is left untouched; otherwise the loop leaves the deque
holding just the final remainder (if non-empty) and the counter equal to
its length. -/
def emitChunks (st : SileroVad) : List (List ℚ) × SileroVad :=
  if sileroFrameSize ≤ st.bufferSamples then
    let combined := st.buffer.flatten
    let r := chunksOf combined
    ((chunksOf combined).1,
      ⟨if r.2.length = 0 then [] else [r.2], r.2.length, st.chunkCount⟩)
  else ([], st)

/-- Chunk-extraction part of `SileroVadAdapter.process`: append the
frame's mono-float32 view to the deque, bump the counter, and emit all
complete 512-sample chunks.  Returns the chunks passed to the underlying
detector during this call, in order, with the post-call state. -/
def sileroProcessChunks (st : SileroVad) (mono : List ℚ) : List (List ℚ) × SileroVad :=
  emitChunks ⟨st.buffer ++ [mono], st.bufferSamples + mono.length, st.chunkCount⟩

/-- Event-selection loop of `SileroVadAdapter.process`: fold over the
events the detector returned for the successive chunks of one call
(`some true` = speech start, `some false` = speech end, `none` = no
event).  An already-recorded end event (`not last_event.detected`) is
never overwritten. -/
def sileroReturnedEvent (chunkEvents : List (Option Bool)) : Option Bool :=
  chunkEvents.foldl
    (fun last e =>
      match e with
      | none => last
      | some d =>
        match last with
        | some l => if l = false then last else some d
        | none => some d)
    none

/-- Full `SileroVadAdapter.process`: `det` is the stateful detector
oracle, indexed by the global count of chunk invocations.  Returns the
event reported to the caller and the successor state. -/
def sileroProcess (det : Nat → Option Bool) (st : SileroVad) (mono : List ℚ) :
    Option Bool × SileroVad :=
  let cs := sileroProcessChunks st mono
  let evs := (List.range cs.1.length).map (fun i => det (st.chunkCount + i))
  (sileroReturnedEvent evs, ⟨cs.2.buffer, cs.2.bufferSamples, st.chunkCount + cs.1.length⟩)

/-- Feeding a whole list of frames (their mono views) through the adapter,
collecting every chunk handed to the underlying detector across all the
calls, in order. -/
def sileroFeedChunks (st : SileroVad) : List (List ℚ) → List (List ℚ) × SileroVad
  | [] => ([], st)
  | m :: rest =>
    let c := sileroProcessChunks st m
    let c2 := sileroFeedChunks c.2 rest
    (c.1 ++ c2.1, c2.2)

/-- Modelled from the spec (refinement reference for the VAD-adaptation
claim): the detector invocations obtained by feeding the `N`-sample
stream directly in 512-sample slices — the `i`-th invocation is the
`i`-th complete 512-sample block, `i < ⌊N / 512⌋`. -/
def specInvocations (s : List ℚ) : List (List ℚ) :=
  (List.range (s.length / 512)).map (fun i => (s.drop (512 * i)).take 512)

/-! Basic facts about `chunksOf`. -/

theorem chunksOf_of_lt {l : List ℚ} (h : l.length < sileroFrameSize) :
    chunksOf l = ([], l) := by
  rw [chunksOf]
  simp [Nat.not_le.mpr h]

theorem chunksOf_of_le {l : List ℚ} (h : sileroFrameSize ≤ l.length) :
    chunksOf l =
      (l.take sileroFrameSize :: (chunksOf (l.drop sileroFrameSize)).1,
       (chunksOf (l.drop sileroFrameSize)).2) := by
  rw [chunksOf]
  simp [h]

theorem chunksOf_join_append (l : List ℚ) :
    (chunksOf l).1.flatten ++ (chunksOf l).2 = l := by
  by_cases h : sileroFrameSize ≤ l.length
  · rw [chunksOf_of_le h]
    have ih := chunksOf_join_append (l.drop sileroFrameSize)
    simp only [List.flatten_cons, List.append_assoc, ih]
    exact List.take_append_drop _ l
  · rw [chunksOf_of_lt (Nat.not_le.mp h)]
    simp
termination_by l.length
decreasing_by
  simp only [List.length_drop, sileroFrameSize]
  simp [sileroFrameSize] at h
  omega

theorem chunksOf_rem_lt (l : List ℚ) : (chunksOf l).2.length < sileroFrameSize := by
  by_cases h : sileroFrameSize ≤ l.length
  · rw [chunksOf_of_le h]
    exact chunksOf_rem_lt (l.drop sileroFrameSize)
  · rw [chunksOf_of_lt (Nat.not_le.mp h)]
    exact Nat.not_le.mp h
termination_by l.length
decreasing_by
  simp only [List.length_drop, sileroFrameSize]
  simp [sileroFrameSize] at h
  omega

theorem chunksOf_chunk_len (l : List ℚ) :
    ∀ c ∈ (chunksOf l).1, c.length = sileroFrameSize := by
  by_cases h : sileroFrameSize ≤ l.length
  · rw [chunksOf_of_le h]
    intro c hc
    rcases List.mem_cons.mp hc with hc | hc
    · subst hc
      exact List.length_take_of_le h
    · exact chunksOf_chunk_len (l.drop sileroFrameSize) c hc
  · rw [chunksOf_of_lt (Nat.not_le.mp h)]
    intro c hc
    simp at hc
termination_by l.length
decreasing_by
  simp only [List.length_drop, sileroFrameSize]
  simp [sileroFrameSize] at h
  omega

theorem chunksOf_count (l : List ℚ) :
    (chunksOf l).1.length = l.length / sileroFrameSize := by
  by_cases h : sileroFrameSize ≤ l.length
  · rw [chunksOf_of_le h]
    have ih := chunksOf_count (l.drop sileroFrameSize)
    simp only [List.length_cons, ih, List.length_drop]
    simp only [sileroFrameSize] at h ⊢
    omega
  · rw [chunksOf_of_lt (Nat.not_le.mp h)]
    have : l.length / sileroFrameSize = 0 := Nat.div_eq_of_lt (Nat.not_le.mp h)
    simp [this]
termination_by l.length
decreasing_by
  simp only [List.length_drop, sileroFrameSize]
  simp [sileroFrameSize] at h
  omega

theorem chunksOf_cons_block {c l : List ℚ} (hc : c.length = sileroFrameSize) :
    chunksOf (c ++ l) = ((c :: (chunksOf l).1), (chunksOf l).2) := by
  have hle : sileroFrameSize ≤ (c ++ l).length := by
    simp [hc]
  rw [chunksOf_of_le hle]
  have htake : (c ++ l).take sileroFrameSize = c := by
    rw [← hc]
    exact List.take_left c l
  have hdrop : (c ++ l).drop sileroFrameSize = l := by
    rw [← hc]
    exact List.drop_left c l
  rw [htake, hdrop]

/-- Composing the chunker: chunking a stream, then chunking the remainder
extended by more samples, is the same as chunking the whole stream. -/
theorem chunksOf_assoc (a b : List ℚ) :
    (chunksOf (a ++ b)).1 = (chunksOf a).1 ++ (chunksOf ((chunksOf a).2 ++ b)).1 ∧
    (chunksOf (a ++ b)).2 = (chunksOf ((chunksOf a).2 ++ b)).2 := by
  by_cases h : sileroFrameSize ≤ a.length
  · have htake : (a ++ b).take sileroFrameSize = a.take sileroFrameSize := by
      exact List.take_append_of_le_length h
    have hdrop : (a ++ b).drop sileroFrameSize = a.drop sileroFrameSize ++ b := by
      exact List.drop_append_of_le_length h
    have hlen : sileroFrameSize ≤ (a ++ b).length := by
      simp only [List.length_append]
      omega
    have ih := chunksOf_assoc (a.drop sileroFrameSize) b
    rw [chunksOf_of_le hlen, chunksOf_of_le h, htake, hdrop]
    exact ⟨by simp [ih.1], ih.2⟩
  · rw [chunksOf_of_lt (Nat.not_le.mp h)]
    simp
termination_by a.length
decreasing_by
  simp only [List.length_drop, sileroFrameSize]
  simp [sileroFrameSize] at h
  omega

/-- The chunker agrees with direct 512-sample slicing of the stream. -/
theorem chunksOf_eq_specInvocations (s : List ℚ) :
    (chunksOf s).1 = specInvocations s := by
  by_cases h : sileroFrameSize ≤ s.length
  · rw [chunksOf_of_le h]
    have ih := chunksOf_eq_specInvocations (s.drop sileroFrameSize)
    rw [ih]
    unfold specInvocations
    have hq : s.length / 512 = (s.drop sileroFrameSize).length / 512 + 1 := by
      simp only [List.length_drop, sileroFrameSize] at *
      omega
    rw [hq, List.range_succ_eq_map]
    simp only [List.map_cons, List.map_map]
    refine List.cons_eq_cons.mpr ⟨by simp [sileroFrameSize], ?_⟩
    apply List.map_congr_left
    intro i _
    simp only [Function.comp_apply, List.drop_drop, sileroFrameSize]
    have hsucc : 512 * Nat.succ i = 512 * i + 512 := by
      simp only [Nat.succ_eq_add_one]
      ring
    rw [hsucc, Nat.add_comm 512 (512 * i)]
  · rw [chunksOf_of_lt (Nat.not_le.mp h)]
    unfold specInvocations
    have : s.length / 512 = 0 := by
      apply Nat.div_eq_of_lt
      simp [sileroFrameSize] at h
      omega
    simp [this]
termination_by s.length
decreasing_by
  simp only [List.length_drop, sileroFrameSize]
  simp [sileroFrameSize] at h
  omega

/-- Consistency of a reachable adapter state: the sample counter equals
the flattened buffer length, and less than one full chunk is pending. -/
def SileroVad.Consistent (st : SileroVad) : Prop :=
  st.bufferSamples = st.buffer.flatten.length ∧ st.buffer.flatten.length < sileroFrameSize

theorem emitChunks_of_le {st : SileroVad} (h : sileroFrameSize ≤ st.bufferSamples) :
    emitChunks st = ((chunksOf st.buffer.flatten).1,
      ⟨if (chunksOf st.buffer.flatten).2.length = 0 then []
        else [(chunksOf st.buffer.flatten).2],
       (chunksOf st.buffer.flatten).2.length, st.chunkCount⟩) := by
  unfold emitChunks
  simp [h]

theorem emitChunks_of_lt {st : SileroVad} (h : st.bufferSamples < sileroFrameSize) :
    emitChunks st = ([], st) := by
  unfold emitChunks
  simp [Nat.not_le.mpr h]

theorem sileroProcessChunks_spec (st : SileroVad) (mono : List ℚ)
    (hc : st.Consistent) :
    (sileroProcessChunks st mono).1 = (chunksOf (st.buffer.flatten ++ mono)).1 ∧
    (sileroProcessChunks st mono).2.buffer.flatten = (chunksOf (st.buffer.flatten ++ mono)).2 ∧
    (sileroProcessChunks st mono).2.Consistent ∧
    (sileroProcessChunks st mono).2.chunkCount = st.chunkCount := by
  obtain ⟨hcount, hlt⟩ := hc
  have hflat : (st.buffer ++ [mono]).flatten = st.buffer.flatten ++ mono := by simp
  by_cases h : sileroFrameSize ≤ st.bufferSamples + mono.length
  · have hrw : sileroProcessChunks st mono =
        ((chunksOf (st.buffer.flatten ++ mono)).1,
         ⟨if (chunksOf (st.buffer.flatten ++ mono)).2.length = 0 then []
           else [(chunksOf (st.buffer.flatten ++ mono)).2],
          (chunksOf (st.buffer.flatten ++ mono)).2.length, st.chunkCount⟩) := by
      unfold sileroProcessChunks
      rw [emitChunks_of_le h]
      simp [hflat]
    rw [hrw]
    have hrem := chunksOf_rem_lt (st.buffer.flatten ++ mono)
    refine ⟨rfl, ?_, ⟨?_, ?_⟩, rfl⟩
    · by_cases hz : (chunksOf (st.buffer.flatten ++ mono)).2.length = 0
      · simp [hz, List.length_eq_zero.mp hz]
      · simp [hz]
    · by_cases hz : (chunksOf (st.buffer.flatten ++ mono)).2.length = 0
      · simp [hz]
      · simp [hz]
    · by_cases hz : (chunksOf (st.buffer.flatten ++ mono)).2.length = 0
      · simp only [hz, if_pos]
        simpa [sileroFrameSize] using rfl
      · simpa [hz] using hrem
  · have hlt2 : (st.buffer.flatten ++ mono).length < sileroFrameSize := by
      simp only [List.length_append]
      omega
    have hrw : sileroProcessChunks st mono =
        ([], ⟨st.buffer ++ [mono], st.bufferSamples + mono.length, st.chunkCount⟩) := by
      unfold sileroProcessChunks
      rw [emitChunks_of_lt (Nat.not_le.mp h)]
    rw [hrw, chunksOf_of_lt hlt2]
    exact ⟨rfl, by simpa using hflat,
      ⟨by simp [hcount], by simpa [hflat] using hlt2⟩, rfl⟩

/-- Feeding frames one call at a time produces exactly the chunks of the
pending remainder followed by the new samples, maintaining consistency. -/
theorem sileroFeedChunks_spec :
    ∀ (frames : List (List ℚ)) (st : SileroVad), st.Consistent →
    (sileroFeedChunks st frames).1 =
      (chunksOf (st.buffer.flatten ++ frames.flatten)).1 ∧
    (sileroFeedChunks st frames).2.buffer.flatten =
      (chunksOf (st.buffer.flatten ++ frames.flatten)).2 ∧
    (sileroFeedChunks st frames).2.Consistent := by
  intro frames
  induction frames with
  | nil =>
    intro st hc
    obtain ⟨hcount, hlt⟩ := hc
    have hch : chunksOf (st.buffer.flatten ++ ([] : List (List ℚ)).flatten) =
        ([], st.buffer.flatten) := by
      simpa using chunksOf_of_lt hlt
    refine ⟨?_, ?_, hcount, hlt⟩
    · rw [hch]
      rfl
    · rw [hch]
      rfl
  | cons m rest ih =>
    intro st hc
    obtain ⟨h1, h2, h3, _⟩ := sileroProcessChunks_spec st m hc
    obtain ⟨ih1, ih2, ih3⟩ := ih (sileroProcessChunks st m).2 h3
    have hassoc := chunksOf_assoc (st.buffer.flatten ++ m) rest.flatten
    have hflat : (m :: rest).flatten = m ++ rest.flatten := by simp
    have hstream : st.buffer.flatten ++ (m :: rest).flatten =
        (st.buffer.flatten ++ m) ++ rest.flatten := by
      rw [hflat, List.append_assoc]
    refine ⟨?_, ?_, ?_⟩
    · show (sileroProcessChunks st m).1 ++ (sileroFeedChunks (sileroProcessChunks st m).2 rest).1 = _
      rw [h1, ih1, h2, hstream, hassoc.1]
    · show (sileroFeedChunks (sileroProcessChunks st m).2 rest).2.buffer.flatten = _
      rw [ih2, h2, hstream, hassoc.2]
    · exact ih3

/-- C3: feeding variable-size frames through the VAD port invokes the
underlying detector on exactly `⌊N / 512⌋` chunks of 512 samples each, in
FIFO order; the chunks followed by the retained remainder reassemble the
input stream, and the invocations equal those of feeding the stream in
512-sample slices directly. -/
theorem vad_adaptation_refinement (frames : List (List ℚ)) :
    (sileroFeedChunks sileroInit frames).1 = specInvocations frames.flatten ∧
    (sileroFeedChunks sileroInit frames).1.length = frames.flatten.length / 512 ∧
    (∀ c ∈ (sileroFeedChunks sileroInit frames).1, c.length = 512) ∧
    (sileroFeedChunks sileroInit frames).1.flatten ++
        (sileroFeedChunks sileroInit frames).2.buffer.flatten = frames.flatten := by
  have hcons : sileroInit.Consistent := by
    constructor <;> simp [sileroInit, sileroFrameSize]
  obtain ⟨h1, h2, _⟩ := sileroFeedChunks_spec frames sileroInit hcons
  have hinit : sileroInit.buffer.flatten = [] := by simp [sileroInit]
  rw [hinit, List.nil_append] at h1 h2
  refine ⟨?_, ?_, ?_, ?_⟩
  · rw [h1, chunksOf_eq_specInvocations]
  · rw [h1, chunksOf_count]
    rfl
  · intro c hc
    rw [h1, chunksOf_eq_specInvocations] at hc
    rw [← chunksOf_eq_specInvocations] at hc
    exact chunksOf_chunk_len frames.flatten c hc
  · rw [h1, h2]
    exact chunksOf_join_append frames.flatten

/-- Applying C3 at one concrete 700-sample frame: one 512-sample detector
invocation, 188 retained samples. -/
theorem vad_adaptation_refinement_witness :
    (sileroFeedChunks sileroInit [List.replicate 700 (0 : ℚ)]).1.length = 1 := by
  have h := (vad_adaptation_refinement [List.replicate 700 (0 : ℚ)]).2.1
  rw [h]
  have hflat : ([List.replicate 700 (0 : ℚ)] : List (List ℚ)).flatten =
      List.replicate 700 (0 : ℚ) := by
    simp only [List.flatten_cons, List.flatten_nil, List.append_nil]
  rw [hflat, List.length_replicate]

/-- Once the fold of `process` holds a speech-end event, it keeps it. -/
theorem sileroReturnedEvent_end_sticky :
    ∀ (evs : List (Option Bool)) (acc : Option Bool),
    (acc = some false ∨ some false ∈ evs) →
    evs.foldl
      (fun last e =>
        match e with
        | none => last
        | some d =>
          match last with
          | some l => if l = false then last else some d
          | none => some d)
      acc = some false := by
  intro evs
  induction evs with
  | nil =>
    intro acc h
    rcases h with h | h
    · simpa using h
    · simp at h
  | cons e tl ih =>
    intro acc h
    simp only [List.foldl_cons]
    apply ih
    rcases h with h | h
    · subst h
      left
      cases e with
      | none => rfl
      | some d => simp
    · rcases List.mem_cons.mp h with h | h
      · subst h
        left
        cases acc with
        | none => rfl
        | some l =>
          by_cases hl : l = false
          · simp [hl]
          · simp [hl]
      · right
        exact h

/-- C2: if the detector reports a speech-end event for any of the chunks
processed during one call to `process`, that call returns the speech-end
event (`detected = false`), regardless of speech-start events from later
chunks in the same call. -/
theorem vad_end_priority (det : Nat → Option Bool) (st : SileroVad) (mono : List ℚ)
    (h : ∃ i, i < (sileroProcessChunks st mono).1.length ∧
      det (st.chunkCount + i) = some false) :
    (sileroProcess det st mono).1 = some false := by
  obtain ⟨i, hi, hdet⟩ := h
  show sileroReturnedEvent _ = some false
  apply sileroReturnedEvent_end_sticky
  right
  exact List.mem_map.mpr ⟨i, List.mem_range.mpr hi, hdet⟩

/-- Applying C2 at a concrete call: 1024 zero samples make two chunks, the
first chunk yields speech end, the second speech start; the call still
returns the speech-end event. -/
theorem vad_end_priority_witness :
    (sileroProcess (fun n => if n = 0 then some false else some true)
      sileroInit (List.replicate 1024 (0 : ℚ))).1 = some false := by
  apply vad_end_priority
  refine ⟨0, ?_, by simp [sileroInit]⟩
  have hcons : sileroInit.Consistent := by
    constructor <;> simp [sileroInit, sileroFrameSize]
  have h := (sileroProcessChunks_spec sileroInit (List.replicate 1024 (0 : ℚ)) hcons).1
  rw [h, chunksOf_count]
  have hlen : (sileroInit.buffer.flatten ++ List.replicate 1024 (0 : ℚ)).length = 1024 := by
    simp only [sileroInit, List.flatten_nil, List.nil_append, List.length_replicate]
  rw [hlen]
  norm_num [sileroFrameSize]

/-! ## Listener service (`services/listening.py`)

The `_run` loop is embedded as a step function over an explicit state.
Each loop iteration consumes one `Input`: the frame read from the stream
plus the answers the external detectors and the monotonic clock would
give during that iteration (`wake.detect(frame).detected`, the armed
timeout comparison, and `vad.process(frame)`, with `some true` = speech
start and `some false` = speech end). -/

/-- Listener states (`ListenerState`). -/
inductive LState where
  | idle
  | armed
  | listening
deriving Repr, DecidableEq

/-- Listener events (`ListenerEvent`).  A `result` event carries the list
of captured utterance frames whose concatenated data forms the recording
passed to storage and STT. -/
inductive LEvent where
  | stateChange (s : LState)
  | result (frames : List Frame)
  | error (msg : String)
deriving Repr, DecidableEq

/-- Mutable state of the loop: the machine state plus the three frame
buffers and the `speech_ended` flag of `_run`. -/
structure LSt where
  state : LState
  preRoll : List Frame
  utterance : List Frame
  hangover : List Frame
  speechEnded : Bool
deriving Repr, DecidableEq

/-- State at `start()`: `IDLE` with all buffers empty. -/
def listenerInitSt : LSt :=
  ⟨LState.idle, [], [], [], false⟩

/-- One loop iteration's worth of oracle answers together with the frame. -/
structure LInput where
  frame : Frame
  wakeDetected : Bool
  armedTimedOut : Bool
  vadEvent : Option Bool
deriving Repr, DecidableEq

/-- Finalization environment: whether the `storage` and `stt` ports are
configured (not `None`), and the outcome of `storage.save_recording` and
`stt.transcribe_recording` (`none` = success, `some msg` = the exception
message). -/
structure LCfg where
  storage : Bool
  stt : Bool
  saveErr : Option String
  sttErr : Option String
deriving Repr, DecidableEq

/-- Events of `_set_state`: a `state_change` is emitted only when the
state actually changes. -/
def setStateEvents (old new : LState) : List LEvent :=
  if old = new then [] else [LEvent.stateChange new]

/-- Embeds `ListenerService._process_utterance`: empty frame list or an
unset storage/stt port returns silently; a storage failure or an stt
failure yields one `error` event; otherwise one `result` event. -/
def processUtterance (cfg : LCfg) (frames : List Frame) : List LEvent :=
  if frames.isEmpty then []
  else if cfg.storage = false ∨ cfg.stt = false then []
  else
    match cfg.saveErr with
    | some m => [LEvent.error ("Failed to save recording: " ++ m)]
    | none =>
      match cfg.sttErr with
      | some m => [LEvent.error ("Failed to transcribe: " ++ m)]
      | none => [LEvent.result frames]

/-- Embeds `ListenerService._handle_idle`. -/
def handleIdle (st : LSt) (inp : LInput) : LSt × List LEvent :=
  if inp.wakeDetected then
    ({ st with state := LState.armed, preRoll := [] },
     setStateEvents st.state LState.armed)
  else (st, [])

/-- Embeds `ListenerService._handle_armed` (`pm` is `pre_roll_max`).  The
returned `speech_ended` is `False` on every path of the Python handler. -/
def handleArmed (pm : Nat) (st : LSt) (inp : LInput) : LSt × List LEvent :=
  if inp.armedTimedOut then
    ({ st with state := LState.idle, preRoll := [], speechEnded := false },
     setStateEvents st.state LState.idle)
  else
    let pre1 := st.preRoll ++ [inp.frame]
    let pre2 := if pm < pre1.length then pre1.drop 1 else pre1
    if inp.vadEvent = some true then
      ({ st with state := LState.listening, utterance := pre2, preRoll := [],
                 speechEnded := false },
       setStateEvents st.state LState.listening)
    else
      ({ st with preRoll := pre2, speechEnded := false }, [])

/-- State produced by both finalization paths of `_handle_listening`:
all buffers cleared, back to `IDLE`. -/
def listenerClearedSt : LSt :=
  ⟨LState.idle, [], [], [], false⟩

/-- Embeds `ListenerService._handle_listening` (`hm` = `hangover_max`,
`mu` = `max_utterance_frames`). -/
def handleListening (cfg : LCfg) (hm mu : Nat) (st : LSt) (inp : LInput) :
    LSt × List LEvent :=
  let utt1 := st.utterance ++ [inp.frame]
  if mu ≤ utt1.length then
    (listenerClearedSt,
     processUtterance cfg utt1 ++ setStateEvents st.state LState.idle)
  else
    let endNow := inp.vadEvent = some false
    let ended := if endNow then true else st.speechEnded
    let hang1 := if endNow then [inp.frame] else st.hangover
    if ended then
      let hang2 :=
        if hang1.any (fun g => g.sequence = inp.frame.sequence) then hang1
        else hang1 ++ [inp.frame]
      if hm ≤ hang2.length then
        (listenerClearedSt,
         processUtterance cfg (utt1 ++ hang2) ++ setStateEvents st.state LState.idle)
      else
        ({ st with utterance := utt1, hangover := hang2, speechEnded := true }, [])
    else
      ({ st with utterance := utt1, hangover := hang1, speechEnded := ended }, [])

/-- One iteration of the `_run` loop: dispatch on the current state. -/
def listenerStep (cfg : LCfg) (pm hm mu : Nat) (st : LSt) (inp : LInput) :
    LSt × List LEvent :=
  match st.state with
  | LState.idle => handleIdle st inp
  | LState.armed => handleArmed pm st inp
  | LState.listening => handleListening cfg hm mu st inp

/-- Running the loop over a list of inputs, concatenating the events. -/
def listenerRun (cfg : LCfg) (pm hm mu : Nat) (st : LSt) :
    List LInput → LSt × List LEvent
  | [] => (st, [])
  | i :: rest =>
    let r1 := listenerStep cfg pm hm mu st i
    let r2 := listenerRun cfg pm hm mu r1.1 rest
    (r2.1, r1.2 ++ r2.2)

/-- Suffix of the last `n` elements of a list (the contents of a rolling
buffer of capacity `n`). -/
def lastN (n : Nat) (l : List Frame) : List Frame :=
  l.drop (l.length - n)

theorem lastN_of_le {n : Nat} {l : List Frame} (h : l.length ≤ n) : lastN n l = l := by
  simp [lastN, Nat.sub_eq_zero_of_le h]

theorem lastN_length (n : Nat) (l : List Frame) :
    (lastN n l).length = min n l.length := by
  simp only [lastN, List.length_drop]
  omega

theorem lastN_append_of_le {n : Nat} {b : List Frame} (h : n ≤ b.length)
    (a : List Frame) : lastN n (a ++ b) = lastN n b := by
  unfold lastN
  have harith : (a ++ b).length - n = a.length + (b.length - n) := by
    simp only [List.length_append]
    omega
  rw [harith, List.drop_append]

theorem lastN_append_lastN (n : Nat) (a b : List Frame) :
    lastN n (lastN n a ++ b) = lastN n (a ++ b) := by
  by_cases h : a.length ≤ n
  · rw [lastN_of_le h]
  · have hlen : (lastN n a).length = n := by
      rw [lastN_length]
      omega
    have hsplit : a ++ b = a.take (a.length - n) ++ (lastN n a ++ b) := by
      rw [← List.append_assoc]
      unfold lastN
      rw [List.take_append_drop]
    rw [hsplit, lastN_append_of_le (by simp [hlen]) (a.take (a.length - n))]

theorem armedTrim_eq_lastN {pr : List Frame} {f : Frame} {pm : Nat}
    (h : pr.length ≤ pm) :
    (if pm < (pr ++ [f]).length then (pr ++ [f]).drop 1 else pr ++ [f]) =
      lastN pm (pr ++ [f]) := by
  simp only [List.length_append, List.length_cons, List.length_nil]
  by_cases hlt : pm < pr.length + (0 + 1)
  · have hpm : pr.length = pm := by omega
    simp only [hlt, if_true]
    unfold lastN
    simp only [List.length_append, List.length_cons, List.length_nil]
    have : pr.length + (0 + 1) - pm = 1 := by omega
    rw [this]
  · simp only [hlt, if_false]
    unfold lastN
    simp only [List.length_append, List.length_cons, List.length_nil]
    have : pr.length + (0 + 1) - pm = 0 := by omega
    rw [this, List.drop_zero]

theorem listenerRun_append (cfg : LCfg) (pm hm mu : Nat) (st : LSt)
    (a b : List LInput) :
    listenerRun cfg pm hm mu st (a ++ b) =
      ((listenerRun cfg pm hm mu (listenerRun cfg pm hm mu st a).1 b).1,
       (listenerRun cfg pm hm mu st a).2 ++
         (listenerRun cfg pm hm mu (listenerRun cfg pm hm mu st a).1 b).2) := by
  induction a generalizing st with
  | nil => simp [listenerRun]
  | cons i rest ih =>
    simp only [List.cons_append, listenerRun, List.append_eq]
    rw [ih]
    simp [List.append_assoc]

/-- One quiet ARMED step: the frame slides into the pre-roll window. -/
theorem listenerStep_armed_quiet (cfg : LCfg) (pm hm mu : Nat) (st : LSt)
    (f : Frame) (hst : st.state = LState.armed) (hpm : st.preRoll.length ≤ pm) :
    listenerStep cfg pm hm mu st ⟨f, false, false, none⟩ =
      ({ st with preRoll := lastN pm (st.preRoll ++ [f]), speechEnded := false }, []) := by
  obtain ⟨s, pr, ut, hg, se⟩ := st
  simp only at hst hpm
  subst hst
  show handleArmed pm ⟨LState.armed, pr, ut, hg, se⟩ ⟨f, false, false, none⟩ = _
  have htrim := @armedTrim_eq_lastN pr f pm hpm
  simp only [List.length_append, List.length_cons, List.length_nil, List.drop_one] at htrim
  simp [handleArmed, htrim]

/-- Quiet ARMED phase: processing a run of frames with no wake, timeout or
VAD event leaves the machine ARMED with the pre-roll holding the most
recent `min pm _` frames, and emits nothing. -/
theorem armedPhase (cfg : LCfg) (pm hm mu : Nat) (fs : List Frame) :
    ∀ st : LSt, st.state = LState.armed → st.speechEnded = false →
    st.preRoll.length ≤ pm →
    listenerRun cfg pm hm mu st (fs.map (fun f => ⟨f, false, false, none⟩)) =
      ({ st with preRoll := lastN pm (st.preRoll ++ fs), speechEnded := false }, []) := by
  induction fs with
  | nil =>
    intro st hst hse hpm
    have hl : lastN pm (st.preRoll ++ []) = st.preRoll := by
      rw [List.append_nil]
      exact lastN_of_le hpm
    rw [hl]
    obtain ⟨s, pr, ut, hg, se⟩ := st
    simp only at hse
    subst hse
    simp [listenerRun]
  | cons f rest ih =>
    intro st hst hse hpm
    simp only [List.map_cons, listenerRun]
    rw [listenerStep_armed_quiet cfg pm hm mu st f hst hpm]
    have hlen : (lastN pm (st.preRoll ++ [f])).length ≤ pm := by
      rw [lastN_length]
      omega
    rw [ih ({ st with preRoll := lastN pm (st.preRoll ++ [f]), speechEnded := false })
      (by simp [hst]) (by simp) (by simpa using hlen)]
    simp only [List.nil_append]
    have hcomp : lastN pm (lastN pm (st.preRoll ++ [f]) ++ rest) =
        lastN pm (st.preRoll ++ (f :: rest)) := by
      rw [lastN_append_lastN]
      rw [List.append_assoc]
      rfl
    rw [hcomp]

/-- Wake step in IDLE: transition to ARMED, clear the pre-roll, emit one
state change. -/
theorem listenerStep_idle_wake (cfg : LCfg) (pm hm mu : Nat) (st : LSt)
    (f : Frame) (hst : st.state = LState.idle) :
    listenerStep cfg pm hm mu st ⟨f, true, false, none⟩ =
      ({ st with state := LState.armed, preRoll := [] },
       [LEvent.stateChange LState.armed]) := by
  obtain ⟨s, pr, ut, hg, se⟩ := st
  simp only at hst
  subst hst
  show handleIdle ⟨LState.idle, pr, ut, hg, se⟩ ⟨f, true, false, none⟩ = _
  simp [handleIdle, setStateEvents]

/-- Speech-start step in ARMED: the current frame joins the pre-roll
window first, then the utterance buffer is initialized from it. -/
theorem listenerStep_armed_start (cfg : LCfg) (pm hm mu : Nat) (st : LSt)
    (f : Frame) (hst : st.state = LState.armed) (hpm : st.preRoll.length ≤ pm) :
    listenerStep cfg pm hm mu st ⟨f, false, false, some true⟩ =
      ({ st with state := LState.listening, preRoll := [],
                 utterance := lastN pm (st.preRoll ++ [f]), speechEnded := false },
       [LEvent.stateChange LState.listening]) := by
  obtain ⟨s, pr, ut, hg, se⟩ := st
  simp only at hst hpm
  subst hst
  show handleArmed pm ⟨LState.armed, pr, ut, hg, se⟩ ⟨f, false, false, some true⟩ = _
  have htrim := @armedTrim_eq_lastN pr f pm hpm
  simp only [List.length_append, List.length_cons, List.length_nil, List.drop_one] at htrim
  simp [handleArmed, setStateEvents, htrim]

/-- Quiet LISTENING phase before speech end: each frame is appended to the
utterance, nothing is emitted, and the hangover buffer is untouched. -/
theorem listeningQuietPhase (cfg : LCfg) (pm hm mu : Nat) (fs : List Frame) :
    ∀ st : LSt, st.state = LState.listening → st.speechEnded = false →
    st.utterance.length + fs.length < mu →
    listenerRun cfg pm hm mu st (fs.map (fun f => ⟨f, false, false, none⟩)) =
      ({ st with utterance := st.utterance ++ fs }, []) := by
  induction fs with
  | nil =>
    intro st hst hse hmu
    obtain ⟨s, pr, ut, hg, se⟩ := st
    simp [listenerRun]
  | cons f rest ih =>
    intro st hst hse hmu
    simp only [List.map_cons, listenerRun]
    have hstep : listenerStep cfg pm hm mu st ⟨f, false, false, none⟩ =
        ({ st with utterance := st.utterance ++ [f] }, []) := by
      obtain ⟨s, pr, ut, hg, se⟩ := st
      simp only at hst hse hmu
      subst hst
      subst hse
      show handleListening cfg hm mu ⟨LState.listening, pr, ut, hg, false⟩
        ⟨f, false, false, none⟩ = _
      have hlt : ¬ mu ≤ ut.length + 1 := by
        simp only [List.length_cons] at hmu
        omega
      simp [handleListening, hlt]
    rw [hstep]
    have hnext := ih ({ st with utterance := st.utterance ++ [f] })
      (by simp [hst]) (by simp [hse]) (by simp; simp only [List.length_cons] at hmu; omega)
    rw [hnext]
    simp [List.append_assoc]

/-- Speech-end step in LISTENING (away from both finalization bounds):
the frame is appended to the utterance and seeds the hangover buffer. -/
theorem listenerStep_listening_end (cfg : LCfg) (pm hm mu : Nat) (st : LSt)
    (f : Frame) (hst : st.state = LState.listening)
    (hmu : st.utterance.length + 1 < mu) (hhm : 2 ≤ hm) :
    listenerStep cfg pm hm mu st ⟨f, false, false, some false⟩ =
      ({ st with utterance := st.utterance ++ [f], hangover := [f],
                 speechEnded := true }, []) := by
  obtain ⟨s, pr, ut, hg, se⟩ := st
  simp only at hst hmu
  subst hst
  show handleListening cfg hm mu ⟨LState.listening, pr, ut, hg, se⟩
    ⟨f, false, false, some false⟩ = _
  have hlt : ¬ mu ≤ ut.length + 1 := by
    omega
  have hhm2 : ¬ hm ≤ 1 := by
    omega
  simp [handleListening, hlt, hhm2]

/-- Hangover step that does not yet fill the buffer: the frame goes into
both the utterance and the hangover buffer. -/
theorem listenerStep_hangover_grow (cfg : LCfg) (pm hm mu : Nat)
    (pr U hg : List Frame) (f : Frame)
    (hany : (hg.any (fun g => g.sequence = f.sequence)) = false)
    (hmu2 : ¬ mu ≤ U.length + (hg.length + 1))
    (hhm2 : ¬ hm ≤ hg.length + 1) :
    listenerStep cfg pm hm mu ⟨LState.listening, pr, U ++ hg, hg, true⟩
        ⟨f, false, false, none⟩ =
      (⟨LState.listening, pr, (U ++ hg) ++ [f], hg ++ [f], true⟩, []) := by
  show handleListening cfg hm mu ⟨LState.listening, pr, U ++ hg, hg, true⟩
    ⟨f, false, false, none⟩ = _
  simp [handleListening, hany, hmu2, hhm2]

/-- Hangover step that fills the buffer: the hangover frames are appended
to the utterance (a second time) and the utterance is finalized. -/
theorem listenerStep_hangover_fill (cfg : LCfg) (pm hm mu : Nat)
    (pr U hg : List Frame) (f : Frame)
    (hany : (hg.any (fun g => g.sequence = f.sequence)) = false)
    (hmu2 : ¬ mu ≤ U.length + (hg.length + 1))
    (hhm2 : hm ≤ hg.length + 1) :
    listenerStep cfg pm hm mu ⟨LState.listening, pr, U ++ hg, hg, true⟩
        ⟨f, false, false, none⟩ =
      (listenerClearedSt,
       processUtterance cfg (((U ++ hg) ++ [f]) ++ (hg ++ [f])) ++
         [LEvent.stateChange LState.idle]) := by
  show handleListening cfg hm mu ⟨LState.listening, pr, U ++ hg, hg, true⟩
    ⟨f, false, false, none⟩ = _
  simp [handleListening, setStateEvents, hany, hmu2, hhm2]

/-- Hangover phase: from a LISTENING state whose hangover buffer `hg` is
already seeded and counted inside the utterance, quiet frames accumulate
until the buffer reaches `hm`, at which point the whole hangover block is
appended to the utterance again and the utterance is finalized. -/
theorem hangoverPhase (cfg : LCfg) (pm hm mu : Nat) (fs : List Frame) :
    ∀ (hg U pr : List Frame),
    (((hg ++ fs).map (fun g => g.sequence)).Nodup) →
    hg.length < hm →
    hg.length + fs.length = hm →
    U.length + hm < mu →
    listenerRun cfg pm hm mu ⟨LState.listening, pr, U ++ hg, hg, true⟩
        (fs.map (fun f => ⟨f, false, false, none⟩)) =
      (listenerClearedSt,
       processUtterance cfg ((U ++ (hg ++ fs)) ++ (hg ++ fs)) ++
         [LEvent.stateChange LState.idle]) := by
  induction fs with
  | nil =>
    intro hg U pr hnd hlt hsum hmu
    simp only [List.length_nil] at hsum
    omega
  | cons f rest ih =>
    intro hg U pr hnd hlt hsum hmu
    have hnd' := hnd
    rw [List.map_append] at hnd'
    have hdisj := (List.nodup_append.mp hnd').2.2
    have hany : (hg.any (fun g => g.sequence = f.sequence)) = false := by
      rw [Bool.eq_false_iff]
      intro hcontra
      rw [List.any_eq_true] at hcontra
      obtain ⟨g, hgmem, hgeq⟩ := hcontra
      have hgeq2 : g.sequence = f.sequence := by simpa using hgeq
      apply hdisj (List.mem_map_of_mem (fun g => g.sequence) hgmem)
      rw [hgeq2]
      exact List.mem_map_of_mem (fun g => g.sequence) (List.mem_cons_self f rest)
    have hmu2 : ¬ mu ≤ U.length + (hg.length + 1) := by omega
    simp only [List.map_cons, listenerRun]
    by_cases hrest : rest = []
    · subst hrest
      simp only [List.length_cons, List.length_nil] at hsum
      have hfill : hm ≤ hg.length + 1 := by omega
      rw [listenerStep_hangover_fill cfg pm hm mu pr U hg f hany hmu2 hfill]
      simp [listenerRun, List.append_assoc]
    · have hrestlen : 1 ≤ rest.length := by
        cases rest with
        | nil => exact absurd rfl hrest
        | cons a l => simp
      simp only [List.length_cons] at hsum
      have hgrow : ¬ hm ≤ hg.length + 1 := by omega
      rw [listenerStep_hangover_grow cfg pm hm mu pr U hg f hany hmu2 hgrow]
      have hassocst : (U ++ hg) ++ [f] = U ++ (hg ++ [f]) := List.append_assoc U hg [f]
      rw [hassocst]
      have hnd2 : (((hg ++ [f]) ++ rest).map (fun g => g.sequence)).Nodup := by
        rw [List.append_assoc]
        simpa using hnd
      have hlt2 : (hg ++ [f]).length < hm := by
        simp only [List.length_append, List.length_cons, List.length_nil]
        omega
      have hsum2 : (hg ++ [f]).length + rest.length = hm := by
        simp only [List.length_append, List.length_cons, List.length_nil]
        omega
      rw [ih (hg ++ [f]) U pr hnd2 hlt2 hsum2 hmu]
      simp [List.append_assoc]

/-- Speech-end step when `hangover_max` is already met by the single end
frame: the utterance is finalized immediately, with the end frame counted
twice. -/
theorem listenerStep_listening_end_fill (cfg : LCfg) (pm hm mu : Nat)
    (pr V hg0 : List Frame) (f : Frame)
    (hmu2 : ¬ mu ≤ V.length + 1) (hhm1 : hm ≤ 1) :
    listenerStep cfg pm hm mu ⟨LState.listening, pr, V, hg0, false⟩
        ⟨f, false, false, some false⟩ =
      (listenerClearedSt,
       processUtterance cfg ((V ++ [f]) ++ [f]) ++
         [LEvent.stateChange LState.idle]) := by
  show handleListening cfg hm mu ⟨LState.listening, pr, V, hg0, false⟩
    ⟨f, false, false, some false⟩ = _
  simp [handleListening, setStateEvents, hmu2, hhm1]

/-- Unfolding one iteration of the run. -/
theorem listenerRun_cons (cfg : LCfg) (pm hm mu : Nat) (st : LSt)
    (i : LInput) (rest : List LInput) :
    listenerRun cfg pm hm mu st (i :: rest) =
      ((listenerRun cfg pm hm mu (listenerStep cfg pm hm mu st i).1 rest).1,
       (listenerStep cfg pm hm mu st i).2 ++
         (listenerRun cfg pm hm mu (listenerStep cfg pm hm mu st i).1 rest).2) := rfl

/-- With storage and stt configured and both calls succeeding, finalizing
a non-empty utterance emits exactly the `result` event. -/
theorem processUtterance_ok (cfg : LCfg) (frames : List Frame)
    (hstor : cfg.storage = true) (hstt : cfg.stt = true)
    (hsave : cfg.saveErr = none) (htr : cfg.sttErr = none)
    (hne : frames ≠ []) :
    processUtterance cfg frames = [LEvent.result frames] := by
  unfold processUtterance
  rw [hsave, htr, hstor, hstt]
  simp [hne]

/-- C1 (amended): in the wake / 10 quiet ARMED frames / speech start / 20
quiet LISTENING frames / speech end / quiet frames until the hangover
fills scenario, the finalized utterance is the `min(pre_roll_max, 11)`
most recent ARMED-phase frames (the speech-start frame included, at the
tail of that window), the 20 LISTENING frames, and the hangover block —
the speech-end frame plus the `hangover_max - 1` following frames —
twice: once from the per-frame appends and once from the final extend.
Its length is `min(pre_roll_max, 11) + 20 + 2 * hangover_max`, and
exactly one `result` event is emitted. -/
theorem listener_s4_amended
    (cfg : LCfg) (pm hm mu : Nat)
    (armed listen tail : List Frame) (wakeF startF endF : Frame)
    (hstor : cfg.storage = true) (hstt : cfg.stt = true)
    (hsave : cfg.saveErr = none) (htr : cfg.sttErr = none)
    (hpm : 1 ≤ pm) (hhm : 1 ≤ hm)
    (hA : armed.length = 10) (hL : listen.length = 20) (hT : tail.length = hm - 1)
    (hnd : ((endF :: tail).map (fun g => g.sequence)).Nodup)
    (hmu : min pm 11 + 20 + hm < mu) :
    listenerRun cfg pm hm mu listenerInitSt
      ([⟨wakeF, true, false, none⟩] ++
        (armed.map (fun f => ⟨f, false, false, none⟩) ++
          ([⟨startF, false, false, some true⟩] ++
            (listen.map (fun f => ⟨f, false, false, none⟩) ++
              ([⟨endF, false, false, some false⟩] ++
                tail.map (fun f => ⟨f, false, false, none⟩)))))) =
    (listenerClearedSt,
     [LEvent.stateChange LState.armed, LEvent.stateChange LState.listening,
      LEvent.result (lastN pm (armed ++ [startF]) ++ listen ++
        ((endF :: tail) ++ (endF :: tail))),
      LEvent.stateChange LState.idle]) ∧
    (lastN pm (armed ++ [startF]) ++ listen ++ ((endF :: tail) ++ (endF :: tail))).length
      = min pm 11 + 20 + 2 * hm := by
  have h11 : (armed ++ [startF]).length = 11 := by simp [hA]
  have hPlen : (lastN pm (armed ++ [startF])).length = min pm 11 := by
    rw [lastN_length, h11]
  constructor
  · -- the run itself
    have hw : listenerStep cfg pm hm mu listenerInitSt ⟨wakeF, true, false, none⟩ =
        (⟨LState.armed, [], [], [], false⟩, [LEvent.stateChange LState.armed]) := by
      rw [listenerStep_idle_wake cfg pm hm mu listenerInitSt wakeF rfl]
      simp [listenerInitSt]
    have h2 : listenerRun cfg pm hm mu ⟨LState.armed, [], [], [], false⟩
        (armed.map (fun f => ⟨f, false, false, none⟩)) =
        (⟨LState.armed, lastN pm armed, [], [], false⟩, []) := by
      rw [armedPhase cfg pm hm mu armed ⟨LState.armed, [], [], [], false⟩ rfl rfl (by simp)]
      simp
    have hprlen : (lastN pm armed).length ≤ pm := by
      rw [lastN_length]
      omega
    have h3 : listenerStep cfg pm hm mu ⟨LState.armed, lastN pm armed, [], [], false⟩
        ⟨startF, false, false, some true⟩ =
        (⟨LState.listening, [], lastN pm (armed ++ [startF]), [], false⟩,
         [LEvent.stateChange LState.listening]) := by
      rw [listenerStep_armed_start cfg pm hm mu _ startF rfl hprlen]
      have hcomp : lastN pm (lastN pm armed ++ [startF]) = lastN pm (armed ++ [startF]) :=
        lastN_append_lastN pm armed [startF]
      simp [hcomp]
    have hbound4 : (lastN pm (armed ++ [startF])).length + listen.length < mu := by
      rw [hPlen, hL]
      omega
    have h4 : listenerRun cfg pm hm mu
        ⟨LState.listening, [], lastN pm (armed ++ [startF]), [], false⟩
        (listen.map (fun f => ⟨f, false, false, none⟩)) =
        (⟨LState.listening, [], lastN pm (armed ++ [startF]) ++ listen, [], false⟩, []) := by
      rw [listeningQuietPhase cfg pm hm mu listen _ rfl rfl hbound4]
    have hVlen : (lastN pm (armed ++ [startF]) ++ listen).length = min pm 11 + 20 := by
      simp [hPlen, hL]
    simp only [List.singleton_append]
    rw [listenerRun_cons, hw]
    dsimp only
    rw [listenerRun_append, h2]
    dsimp only
    rw [listenerRun_cons, h3]
    dsimp only
    rw [listenerRun_append, h4]
    dsimp only
    by_cases hhm1 : hm ≤ 1
    · -- hangover_max = 1: the end frame finalizes at once
      have hmeq : hm = 1 := by omega
      have htail : tail = [] := by
        rw [hmeq] at hT
        simpa using List.length_eq_zero.mp (by simpa using hT)
      subst htail
      have hmu5 : ¬ mu ≤ (lastN pm (armed ++ [startF]) ++ listen).length + 1 := by
        rw [hVlen]
        omega
      rw [listenerRun_cons,
        listenerStep_listening_end_fill cfg pm hm mu []
          (lastN pm (armed ++ [startF]) ++ listen) [] endF hmu5 hhm1]
      dsimp only
      rw [processUtterance_ok cfg _ hstor hstt hsave htr (by simp)]
      simp [listenerRun, List.append_assoc]
    · -- hangover_max ≥ 2: the end frame seeds the hangover buffer
      have hhm2 : 2 ≤ hm := by omega
      have hmu5 : (lastN pm (armed ++ [startF]) ++ listen).length + 1 < mu := by
        rw [hVlen]
        omega
      have h5 : listenerStep cfg pm hm mu
          ⟨LState.listening, [], lastN pm (armed ++ [startF]) ++ listen, [], false⟩
          ⟨endF, false, false, some false⟩ =
          (⟨LState.listening, [],
            (lastN pm (armed ++ [startF]) ++ listen) ++ [endF], [endF], true⟩, []) := by
        rw [listenerStep_listening_end cfg pm hm mu _ endF rfl hmu5 hhm2]
      have hnd6 : ((([endF] ++ tail)).map (fun g => g.sequence)).Nodup := by
        simpa using hnd
      have hlt6 : ([endF] : List Frame).length < hm := by
        simp only [List.length_cons, List.length_nil]
        omega
      have hsum6 : ([endF] : List Frame).length + tail.length = hm := by
        simp only [List.length_cons, List.length_nil, hT]
        omega
      have hmu6 : (lastN pm (armed ++ [startF]) ++ listen).length + hm < mu := by
        rw [hVlen]
        omega
      have h6 := hangoverPhase cfg pm hm mu tail [endF]
        (lastN pm (armed ++ [startF]) ++ listen) [] hnd6 hlt6 hsum6 hmu6
      rw [listenerRun_cons, h5]
      dsimp only
      rw [h6]
      rw [processUtterance_ok cfg _ hstor hstt hsave htr (by simp)]
      simp [List.append_assoc]
  · -- the length
    simp only [List.length_append, hPlen, hL, hT, List.length_cons]
    omega

/-- Utterances carried by the `result` events of an event list. -/
def resultFrames (evs : List LEvent) : List (List Frame) :=
  evs.filterMap (fun e =>
    match e with
    | LEvent.result u => some u
    | _ => none)

/-- S4 scenario frames: ten quiet ARMED frames (sequences 1-10). -/
def s4Armed : List Frame := (List.range 10).map (fun i => ⟨1 + i, []⟩)

/-- S4 scenario frames: twenty quiet LISTENING frames (sequences 12-31). -/
def s4Listen : List Frame := (List.range 20).map (fun i => ⟨12 + i, []⟩)

/-- S4 scenario frames: the five quiet frames after speech end that fill a
hangover buffer of six (sequences 33-37). -/
def s4Tail : List Frame := (List.range 5).map (fun i => ⟨33 + i, []⟩)

/-- Full S4 input trace: wake on sequence 0, speech start on 11, speech
end on 32. -/
def s4Inputs : List LInput :=
  [⟨⟨0, []⟩, true, false, none⟩] ++
    (s4Armed.map (fun f => ⟨f, false, false, none⟩) ++
      ([⟨⟨11, []⟩, false, false, some true⟩] ++
        (s4Listen.map (fun f => ⟨f, false, false, none⟩) ++
          ([⟨⟨32, []⟩, false, false, some false⟩] ++
            s4Tail.map (fun f => ⟨f, false, false, none⟩)))))

/-- C1 (counterexample): with `pre_roll_max = 8` and `hangover_max = 6`
(the S4 configuration) the single finalized utterance has 40 frames, not
`min(pre_roll_max, 10) + 1 + 20 + hangover_max = 35`, and the speech-end
frame (sequence 32) appears twice in it rather than exactly once. -/
theorem listener_s4_counterexample :
    (resultFrames (listenerRun ⟨true, true, none, none⟩ 8 6 156
        listenerInitSt s4Inputs).2).map List.length = [40] ∧
    ((resultFrames (listenerRun ⟨true, true, none, none⟩ 8 6 156
        listenerInitSt s4Inputs).2).flatten.count (⟨32, []⟩ : Frame)) = 2 ∧
    (40 : Nat) ≠ min 8 10 + 1 + 20 + 6 := by
  refine ⟨by decide, by decide, by decide⟩

/-- Applying the amended C1 at the concrete S4 instance: the finalized
utterance length is `min(8, 11) + 20 + 2·6 = 40`. -/
theorem listener_s4_amended_witness :
    (lastN 8 (s4Armed ++ [⟨11, []⟩]) ++ s4Listen ++
      (((⟨32, []⟩ : Frame) :: s4Tail) ++ ((⟨32, []⟩ : Frame) :: s4Tail))).length =
      min 8 11 + 20 + 2 * 6 :=
  (listener_s4_amended ⟨true, true, none, none⟩ 8 6 156 s4Armed s4Listen s4Tail
    ⟨0, []⟩ ⟨11, []⟩ ⟨32, []⟩ rfl rfl rfl rfl (by norm_num) (by norm_num)
    (by decide) (by decide) (by decide) (by decide) (by norm_num)).2

/-- Count of `result` events. -/
def countResult (evs : List LEvent) : Nat :=
  (evs.filter (fun e =>
    match e with
    | LEvent.result _ => true
    | _ => false)).length

/-- Count of `error` events. -/
def countError (evs : List LEvent) : Nat :=
  (evs.filter (fun e =>
    match e with
    | LEvent.error _ => true
    | _ => false)).length

/-- Case analysis of one LISTENING step: either nothing happens beyond
the buffer bookkeeping (the machine stays LISTENING and emits nothing),
or a non-empty utterance is finalized, the state is fully cleared back to
IDLE, and the emitted events are exactly the finalization events followed
by the `state_change(IDLE)`. -/
theorem handleListening_cases (cfg : LCfg) (hm mu : Nat) (st : LSt) (inp : LInput)
    (hst : st.state = LState.listening) :
    ((handleListening cfg hm mu st inp).1.state = LState.listening ∧
     (handleListening cfg hm mu st inp).2 = []) ∨
    (∃ F, F ≠ [] ∧
      handleListening cfg hm mu st inp =
        (listenerClearedSt,
         processUtterance cfg F ++ [LEvent.stateChange LState.idle])) := by
  obtain ⟨s, pr, ut, hg, se⟩ := st
  simp only at hst
  subst hst
  by_cases h1 : mu ≤ ut.length + 1
  · right
    refine ⟨ut ++ [inp.frame], by simp, ?_⟩
    simp [handleListening, setStateEvents, h1]
  · by_cases hv : inp.vadEvent = some false
    · by_cases hfill : hm ≤ 1
      · right
        refine ⟨(ut ++ [inp.frame]) ++ [inp.frame], by simp, ?_⟩
        simp [handleListening, setStateEvents, h1, hv, hfill]
      · left
        simp [handleListening, h1, hv, hfill]
    · cases se with
      | false =>
        left
        simp [handleListening, h1, hv]
      | true =>
        by_cases ha : (hg.any (fun g => g.sequence = inp.frame.sequence)) = true
        · by_cases hfill : hm ≤ hg.length
          · right
            refine ⟨(ut ++ [inp.frame]) ++ hg, ?_, ?_⟩
            · simp
            · simp [handleListening, setStateEvents, h1, hv, ha, hfill]
          · left
            simp [handleListening, h1, hv, ha, hfill]
        · by_cases hfill : hm ≤ hg.length + 1
          · right
            refine ⟨(ut ++ [inp.frame]) ++ (hg ++ [inp.frame]), ?_, ?_⟩
            · simp
            · simp [handleListening, setStateEvents, h1, hv, ha, hfill]
          · left
            simp [handleListening, h1, hv, ha, hfill]

/-- With storage and stt configured but a failing save or transcription
call, finalizing a non-empty utterance emits exactly one `error` event. -/
theorem processUtterance_err (cfg : LCfg) (frames : List Frame)
    (hstor : cfg.storage = true) (hstt : cfg.stt = true)
    (hne : frames ≠ [])
    (hfail : ¬(cfg.saveErr = none ∧ cfg.sttErr = none)) :
    ∃ m, processUtterance cfg frames = [LEvent.error m] := by
  unfold processUtterance
  rw [hstor, hstt]
  cases hsv : cfg.saveErr with
  | some m => exact ⟨"Failed to save recording: " ++ m, by simp [hne]⟩
  | none =>
    cases hsttv : cfg.sttErr with
    | some m => exact ⟨"Failed to transcribe: " ++ m, by simp [hne]⟩
    | none => exact absurd ⟨hsv, hsttv⟩ hfail

/-- C4: with storage and stt configured, every LISTENING step that
returns the machine to IDLE (a finalization, by max-utterance or by a
filled hangover buffer) clears the state entirely and emits exactly one
finalization event — a `result` when persistence and transcription
succeed, an `error` when either fails. -/
theorem listener_finalization_atomic (cfg : LCfg) (hm mu : Nat)
    (st : LSt) (inp : LInput)
    (hst : st.state = LState.listening)
    (hstor : cfg.storage = true) (hstt : cfg.stt = true)
    (hidle : (handleListening cfg hm mu st inp).1.state = LState.idle) :
    (handleListening cfg hm mu st inp).1 = listenerClearedSt ∧
    ((cfg.saveErr = none ∧ cfg.sttErr = none) →
      countResult (handleListening cfg hm mu st inp).2 = 1 ∧
      countError (handleListening cfg hm mu st inp).2 = 0) ∧
    (¬(cfg.saveErr = none ∧ cfg.sttErr = none) →
      countError (handleListening cfg hm mu st inp).2 = 1 ∧
      countResult (handleListening cfg hm mu st inp).2 = 0) := by
  rcases handleListening_cases cfg hm mu st inp hst with ⟨hl, _⟩ | ⟨F, hne, heq⟩
  · rw [hl] at hidle
    exact absurd hidle (by simp)
  · rw [heq]
    refine ⟨rfl, ?_, ?_⟩
    · rintro ⟨hs, ht2⟩
      rw [processUtterance_ok cfg F hstor hstt hs ht2 hne]
      constructor <;> simp [countResult, countError]
    · intro hfail
      obtain ⟨m, hmE⟩ := processUtterance_err cfg F hstor hstt hne hfail
      rw [hmE]
      constructor <;> simp [countResult, countError]

/-- Applying C4 at a concrete finalizing step (max-utterance bound hit
with both ports succeeding): the state is cleared and the counts come out
as one `result`, no `error`. -/
theorem listener_finalization_atomic_witness :
    (handleListening ⟨true, true, none, none⟩ 3 1
        ⟨LState.listening, [], [], [], false⟩ ⟨⟨0, []⟩, false, false, none⟩).1 =
      listenerClearedSt ∧
    countResult (handleListening ⟨true, true, none, none⟩ 3 1
        ⟨LState.listening, [], [], [], false⟩ ⟨⟨0, []⟩, false, false, none⟩).2 = 1 := by
  have h := listener_finalization_atomic ⟨true, true, none, none⟩ 3 1
    ⟨LState.listening, [], [], [], false⟩ ⟨⟨0, []⟩, false, false, none⟩
    rfl rfl rfl (by decide)
  exact ⟨h.1, (h.2.1 ⟨rfl, rfl⟩).1⟩

/-- C9: finalization with an empty frame list or an unset storage or stt
port emits nothing at all — no `result`, no `error` — while a LISTENING
step that finalizes under such a configuration still clears the state and
returns to IDLE, emitting only the `state_change(IDLE)`. -/
theorem listener_silent_discard (cfg : LCfg) (frames : List Frame)
    (h : frames = [] ∨ cfg.storage = false ∨ cfg.stt = false) :
    processUtterance cfg frames = [] ∧
    ((cfg.storage = false ∨ cfg.stt = false) →
      ∀ (hm mu : Nat) (st : LSt) (inp : LInput), st.state = LState.listening →
      (handleListening cfg hm mu st inp).1.state = LState.idle →
      (handleListening cfg hm mu st inp).1 = listenerClearedSt ∧
      (handleListening cfg hm mu st inp).2 = [LEvent.stateChange LState.idle]) := by
  have hproc : ∀ (fr : List Frame),
      fr = [] ∨ cfg.storage = false ∨ cfg.stt = false →
      processUtterance cfg fr = [] := by
    intro fr hfr
    unfold processUtterance
    rcases hfr with hfr | hfr | hfr
    · simp [hfr]
    · simp [hfr]
    · by_cases he : fr.isEmpty
      · simp [he]
      · simp [he, hfr]
  refine ⟨hproc frames h, ?_⟩
  intro hports hm mu st inp hst hidle
  rcases handleListening_cases cfg hm mu st inp hst with ⟨hl, _⟩ | ⟨F, _, heq⟩
  · rw [hl] at hidle
    exact absurd hidle (by simp)
  · rw [heq]
    refine ⟨rfl, ?_⟩
    rw [hproc F (by tauto)]
    simp

/-- Applying C9 at a concrete configuration with no storage port: the
finalizing step emits only the state change. -/
theorem listener_silent_discard_witness :
    processUtterance ⟨false, true, none, none⟩ [⟨0, []⟩] = [] ∧
    (handleListening ⟨false, true, none, none⟩ 3 1
        ⟨LState.listening, [], [], [], false⟩ ⟨⟨0, []⟩, false, false, none⟩).2 =
      [LEvent.stateChange LState.idle] := by
  have h := listener_silent_discard ⟨false, true, none, none⟩ [⟨0, []⟩]
    (Or.inr (Or.inl rfl))
  exact ⟨h.1, (h.2 (Or.inl rfl) 3 1 ⟨LState.listening, [], [], [], false⟩
    ⟨⟨0, []⟩, false, false, none⟩ rfl (by decide)).2⟩

/-! ## Buffer-size computation (`services/listening.py`, `_run` lines
152-156) and the frame views (`domain/models.py`).

Python float arithmetic is modelled exactly over `ℚ`; Python's `int()`
truncates toward zero, which is `Int.tdiv` of the numerator by the
denominator. -/

/-- Python `int(q)` on a rational: truncation toward zero. -/
def pyInt (q : ℚ) : ℤ := Int.tdiv q.num (q.den : ℤ)

/-- Embeds `frames_per_second = fmt.sample_rate / fmt.blocksize`. -/
def framesPerSecond (sampleRate blocksize : ℚ) : ℚ := sampleRate / blocksize

/-- Embeds `pre_roll_max = max(1, int(vad_speech_pad_ms / 1000 * fps) + 5)`. -/
def preRollMaxCalc (vadSpeechPadMs fps : ℚ) : ℤ :=
  max 1 (pyInt (vadSpeechPadMs / 1000 * fps) + 5)

/-- Embeds `hangover_max = max(1, int(end_hangover_ms / 1000 * fps))`. -/
def hangoverMaxCalc (endHangoverMs fps : ℚ) : ℤ :=
  max 1 (pyInt (endHangoverMs / 1000 * fps))

/-- Embeds `max_utterance_frames = int(max_utterance_seconds * fps)`. -/
def maxUtteranceFramesCalc (maxUtteranceSeconds fps : ℚ) : ℤ :=
  pyInt (maxUtteranceSeconds * fps)

/-- Truncation toward zero agrees with the floor on non-negative
rationals. -/
theorem pyInt_eq_floor {q : ℚ} (h : 0 ≤ q) : pyInt q = ⌊q⌋ := by
  unfold pyInt
  rw [Int.tdiv_eq_ediv (Rat.num_nonneg.mpr h) (by positivity)]
  exact (Rat.floor_def).symm

/-- Truncation toward zero in floor/ceiling form, for every rational. -/
theorem pyInt_eq_floor_or_ceil (q : ℚ) :
    pyInt q = if 0 ≤ q then ⌊q⌋ else ⌈q⌉ := by
  by_cases h : 0 ≤ q
  · rw [if_pos h]
    exact pyInt_eq_floor h
  · rw [if_neg h]
    push_neg at h
    have hneg : pyInt q = -pyInt (-q) := by
      unfold pyInt
      rw [Rat.neg_num, Rat.neg_den, Int.neg_tdiv, neg_neg]
    rw [hneg, pyInt_eq_floor (by linarith), ← Int.ceil_neg, neg_neg]

/-- C5 (counterexample): at `sample_rate = 16000`, `blocksize = 512`
(`fps = 31.25`) and `end_hangover_ms = 120`, the code computes
`hangover_max = max(1, int(3.75)) = 3`, while the claimed rounding
formula gives `max(1, round(3.75)) = 4`. -/
theorem listener_buffer_round_counterexample :
    hangoverMaxCalc 120 (framesPerSecond 16000 512) ≠
      max 1 (round ((120 : ℚ) / 1000 * framesPerSecond 16000 512)) := by
  have harg : (120 : ℚ) / 1000 * framesPerSecond 16000 512 = 15 / 4 := by
    norm_num [framesPerSecond]
  have hcode : hangoverMaxCalc 120 (framesPerSecond 16000 512) = 3 := by
    unfold hangoverMaxCalc
    rw [harg, pyInt_eq_floor (by norm_num)]
    norm_num
  have hspec : max 1 (round ((120 : ℚ) / 1000 * framesPerSecond 16000 512)) = 4 := by
    rw [harg]
    norm_num [round_eq]
  rw [hcode, hspec]
  decide

/-- C5 (amended): for positive configuration values the buffer bounds are
computed with truncation (equivalently, the floor, since the operands are
positive), not rounding to nearest:
`pre_roll_max = max(1, ⌊vad_speech_pad_ms / 1000 · fps⌋ + 5)`,
`hangover_max = max(1, ⌊end_hangover_ms / 1000 · fps⌋)`,
`max_utterance_frames = ⌊max_utterance_seconds · fps⌋`. -/
theorem listener_buffer_sizes (pad hang maxSec sampleRate blocksize : ℚ)
    (hpad : 0 < pad) (hhang : 0 < hang) (hmaxs : 0 < maxSec)
    (hsr : 0 < sampleRate) (hbs : 0 < blocksize) :
    preRollMaxCalc pad (framesPerSecond sampleRate blocksize) =
      max 1 (⌊pad / 1000 * framesPerSecond sampleRate blocksize⌋ + 5) ∧
    hangoverMaxCalc hang (framesPerSecond sampleRate blocksize) =
      max 1 ⌊hang / 1000 * framesPerSecond sampleRate blocksize⌋ ∧
    maxUtteranceFramesCalc maxSec (framesPerSecond sampleRate blocksize) =
      ⌊maxSec * framesPerSecond sampleRate blocksize⌋ := by
  have hfps : 0 < framesPerSecond sampleRate blocksize := by
    unfold framesPerSecond
    positivity
  refine ⟨?_, ?_, ?_⟩
  · unfold preRollMaxCalc
    rw [pyInt_eq_floor (by positivity)]
  · unfold hangoverMaxCalc
    rw [pyInt_eq_floor (by positivity)]
  · unfold maxUtteranceFramesCalc
    rw [pyInt_eq_floor (by positivity)]

/-- Applying the amended C5 at the S4 configuration: `hangover_max = 3`
at `end_hangover_ms = 120`, `fps = 31.25`. -/
theorem listener_buffer_sizes_witness :
    hangoverMaxCalc 120 (framesPerSecond 16000 512) = 3 := by
  have h := (listener_buffer_sizes 100 120 5 16000 512 (by norm_num)
    (by norm_num) (by norm_num) (by norm_num) (by norm_num)).2.1
  rw [h]
  have harg : (120 : ℚ) / 1000 * framesPerSecond 16000 512 = 15 / 4 := by
    norm_num [framesPerSecond]
  rw [harg]
  norm_num

/-- Embeds `np.clip(mono, -1.0, 1.0)` on one sample. -/
def clipUnit (x : ℚ) : ℚ := max (-1) (min 1 x)

/-- Embeds one sample of `AudioFrame.to_mono_int16`: clip to `[-1, 1]`,
multiply by 32767, and cast with `.astype(np.int16)` — a C-style cast
that truncates toward zero (after clipping the value lies inside the
int16 range, so no wrap occurs). -/
def toMonoInt16Sample (x : ℚ) : ℤ := pyInt (clipUnit x * 32767)

/-- Embeds `AudioFrame.to_mono_int16` on the mono-float32 view. -/
def to_mono_int16 (mono : List ℚ) : List ℤ := mono.map toMonoInt16Sample

/-- Modelled from the spec's words for the refinement comparison: the
claimed view that rounds the scaled sample to the nearest integer. -/
def specMonoInt16Round (x : ℚ) : ℤ := round (clipUnit x * 32767)

/-- C7 (counterexample): at sample value `0.7` the code truncates
`0.7 · 32767 = 22936.9` to `22936`, while rounding to nearest would give
`22937`. -/
theorem mono_int16_round_counterexample :
    to_mono_int16 [(7 : ℚ) / 10] ≠ [specMonoInt16Round ((7 : ℚ) / 10)] ∧
    to_mono_int16 [(7 : ℚ) / 10] = [22936] ∧
    specMonoInt16Round ((7 : ℚ) / 10) = 22937 := by
  have hclip : clipUnit ((7 : ℚ) / 10) = 7 / 10 := by
    unfold clipUnit
    norm_num
  have harg : clipUnit ((7 : ℚ) / 10) * 32767 = 229369 / 10 := by
    rw [hclip]
    norm_num
  have hcode : toMonoInt16Sample ((7 : ℚ) / 10) = 22936 := by
    unfold toMonoInt16Sample
    rw [harg, pyInt_eq_floor (by norm_num)]
    norm_num
  have hspec : specMonoInt16Round ((7 : ℚ) / 10) = 22937 := by
    unfold specMonoInt16Round
    rw [harg]
    norm_num [round_eq]
  refine ⟨?_, ?_, hspec⟩
  · simp only [to_mono_int16, List.map_cons, List.map_nil, hcode, hspec]
    decide
  · simp only [to_mono_int16, List.map_cons, List.map_nil, hcode]

/-- C7 (amended): the mono-int16 view equals the mono-float32 view
clipped to `[-1, 1]`, multiplied by 32767, and truncated toward zero
(floor for non-negative values, ceiling for negative ones) — not rounded
to nearest — and every resulting value lies within `[-32767, 32767]`. -/
theorem to_mono_int16_trunc (mono : List ℚ) :
    to_mono_int16 mono = mono.map (fun x =>
      if 0 ≤ clipUnit x * 32767 then ⌊clipUnit x * 32767⌋
      else ⌈clipUnit x * 32767⌉) ∧
    (∀ x ∈ mono, -32767 ≤ toMonoInt16Sample x ∧ toMonoInt16Sample x ≤ 32767) := by
  have hbound : ∀ x : ℚ, -32767 ≤ toMonoInt16Sample x ∧ toMonoInt16Sample x ≤ 32767 := by
    intro x
    have hlo : -1 ≤ clipUnit x := le_max_left _ _
    have hhi : clipUnit x ≤ 1 := by
      unfold clipUnit
      have h1 : min 1 x ≤ 1 := min_le_left _ _
      exact max_le (by norm_num) h1
    have hylo : (-32767 : ℚ) ≤ clipUnit x * 32767 := by nlinarith
    have hyhi : clipUnit x * 32767 ≤ 32767 := by nlinarith
    unfold toMonoInt16Sample
    rw [pyInt_eq_floor_or_ceil]
    by_cases h : 0 ≤ clipUnit x * 32767
    · rw [if_pos h]
      constructor
      · have : (0 : ℤ) ≤ ⌊clipUnit x * 32767⌋ := Int.floor_nonneg.mpr h
        omega
      · have := Int.floor_le_floor hyhi
        simpa using this
    · rw [if_neg h]
      push_neg at h
      constructor
      · have := Int.ceil_le_ceil hylo
        simpa using this
      · have : ⌈clipUnit x * 32767⌉ ≤ 0 :=
          Int.ceil_le.mpr (by exact_mod_cast le_of_lt h)
        omega
  refine ⟨?_, fun x _ => hbound x⟩
  unfold to_mono_int16
  apply List.map_congr_left
  intro x _
  unfold toMonoInt16Sample
  exact pyInt_eq_floor_or_ceil (clipUnit x * 32767)

/-- Applying the amended C7 at samples `0.7` and `-0.7`: truncation
toward zero gives `22936` and `-22936`. -/
theorem to_mono_int16_trunc_witness :
    to_mono_int16 [(7 : ℚ) / 10, -(7 : ℚ) / 10] = [22936, -22936] := by
  rw [(to_mono_int16_trunc [(7 : ℚ) / 10, -(7 : ℚ) / 10]).1]
  have hc1 : clipUnit ((7 : ℚ) / 10) * 32767 = 229369 / 10 := by
    unfold clipUnit
    norm_num
  have hc2 : clipUnit (-(7 : ℚ) / 10) * 32767 = -(229369 / 10) := by
    unfold clipUnit
    norm_num
  simp only [List.map_cons, List.map_nil, hc1, hc2]
  rw [if_pos (by norm_num), if_neg (by norm_num), Int.ceil_neg]
  norm_num

/-! ## Transcription service (`services/transcription.py`) and wake-word
adapter (`adapters/audio/openww.py`). -/

/-- A `Recording` as the transcription service sees it: whether in-memory
`data` is present, and the optional filesystem `path`. -/
structure RecordingM where
  hasData : Bool
  path : Option String
deriving Repr, DecidableEq

/-- A `Transcript`: the text and the optional `recording_path`. -/
structure TranscriptM where
  text : String
  recordingPath : Option String
deriving Repr, DecidableEq

/-- Embeds `TranscriptionService.transcribe`: reject a recording with
neither data nor path, otherwise call the adapter and copy the input's
path into the transcript when the adapter left `recording_path` unset. -/
def transcribe (adapter : RecordingM → TranscriptM) (r : RecordingM) :
    Except String TranscriptM :=
  if r.path = none ∧ r.hasData = false then
    Except.error "Recording must include audio data or saved path"
  else
    let t := adapter r
    if t.recordingPath = none ∧ r.path ≠ none then
      Except.ok { t with recordingPath := r.path }
    else
      Except.ok t

/-- C8: `transcribe` raises exactly when the recording has neither data
nor path; otherwise it returns the adapter's transcript, whose
`recording_path` is the input's path whenever the adapter left it unset
and the input has one, and the adapter's own value otherwise. -/
theorem transcription_service_contract (adapter : RecordingM → TranscriptM)
    (r : RecordingM) :
    ((∃ m, transcribe adapter r = Except.error m) ↔
      (r.hasData = false ∧ r.path = none)) ∧
    (∀ t, transcribe adapter r = Except.ok t →
      t.text = (adapter r).text ∧
      t.recordingPath =
        (if (adapter r).recordingPath = none ∧ r.path ≠ none then r.path
         else (adapter r).recordingPath) ∧
      ((adapter r).recordingPath = none → r.path ≠ none →
        t.recordingPath = r.path)) := by
  unfold transcribe
  by_cases h1 : r.path = none ∧ r.hasData = false
  · rw [if_pos h1]
    constructor
    · constructor
      · intro _
        exact ⟨h1.2, h1.1⟩
      · intro _
        exact ⟨_, rfl⟩
    · intro t ht
      simp at ht
  · rw [if_neg h1]
    by_cases h2 : (adapter r).recordingPath = none ∧ r.path ≠ none
    · rw [if_pos h2]
      constructor
      · constructor
        · intro ⟨m, hm⟩
          simp at hm
        · intro hcon
          exact absurd ⟨hcon.2, hcon.1⟩ h1
      · intro t ht
        have ht2 : t = { adapter r with recordingPath := r.path } := by
          simpa using ht.symm
        subst ht2
        refine ⟨rfl, ?_, fun _ _ => rfl⟩
        rw [if_pos h2]
    · rw [if_neg h2]
      constructor
      · constructor
        · intro ⟨m, hm⟩
          simp at hm
        · intro hcon
          exact absurd ⟨hcon.2, hcon.1⟩ h1
      · intro t ht
        have ht2 : t = adapter r := by simpa using ht.symm
        subst ht2
        refine ⟨rfl, ?_, fun hn hp => absurd ⟨hn, hp⟩ h2⟩
        rw [if_neg h2]

/-- Applying C8 at a concrete recording with a path and an adapter that
leaves `recording_path` unset: the path is copied through. -/
theorem transcription_service_contract_witness :
    (⟨"hello", some "rec.flac"⟩ : TranscriptM).recordingPath =
      (⟨true, some "rec.flac"⟩ : RecordingM).path :=
  ((transcription_service_contract (fun _ => ⟨"hello", none⟩)
    ⟨true, some "rec.flac"⟩).2 ⟨"hello", some "rec.flac"⟩ (by rfl)).2.2 rfl (by simp)

/-- A wake event: the detection flag and the per-model score map
(association list, as produced from the model's prediction dict). -/
structure WakeEventM where
  detected : Bool
  scores : List (String × ℚ)
deriving Repr, DecidableEq

/-- Embeds `OpenWakeWordAdapter.detect`: `scores` is the model's
prediction map for this frame, `detected` is true when any score reaches
the threshold. -/
def wakeDetect (threshold : ℚ) (pred : List (String × ℚ)) : WakeEventM :=
  ⟨pred.any (fun p => threshold ≤ p.2), pred⟩

/-- C10: the wake event's `detected` flag is true exactly when some model
score is at least the threshold, and its `scores` map is exactly the
model's prediction for the frame. -/
theorem wake_detect_contract (threshold : ℚ) (pred : List (String × ℚ)) :
    ((wakeDetect threshold pred).detected = true ↔
      ∃ p ∈ pred, threshold ≤ p.2) ∧
    (wakeDetect threshold pred).scores = pred := by
  constructor
  · unfold wakeDetect
    simp [List.any_eq_true]
  · rfl

/-- Applying C10 at a concrete prediction map: score `0.75` against
threshold `0.5` fires the detection. -/
theorem wake_detect_contract_witness :
    (wakeDetect ((1 : ℚ) / 2) [("hey_jarvis", (3 : ℚ) / 4)]).detected = true :=
  (wake_detect_contract ((1 : ℚ) / 2) [("hey_jarvis", (3 : ℚ) / 4)]).1.mpr
    ⟨("hey_jarvis", (3 : ℚ) / 4), by simp, by norm_num⟩

/-! ## Stream hub (spec §4.1)

Modelled from the spec: the stream-hub implementation (producer with
monotonically increasing `sequence` assignment and per-subscriber bounded
queues with the drop-oldest policy) is not present under `src/` —
`ports/audiostream.py` declares only the `AudioStreamPort` protocol.  The
model below follows the spec's algorithm for a single subscriber: each
`offer` is a device callback fanned out to the subscriber's queue
(evicting the oldest queued frame when the queue is full), and each
`read` delivers the frame at the head of the queue. -/

/-- One interleaving step seen by a subscriber: a producer fan-out or a
consumer read. -/
inductive HubOp where
  | offer
  | read
deriving Repr, DecidableEq

/-- Subscriber-side state: its bounded queue, the frames delivered to it
so far in order, and the producer's next sequence number. -/
structure HubSub where
  queue : List Frame
  delivered : List Frame
  nextSeq : Nat
deriving Repr

/-- Modelled from the spec: one hub step.  An `offer` enqueues a frame
carrying the next sequence number, discarding the oldest queued frame if
the queue already holds `maxFrames`; a `read` pops the head of the queue
(returning nothing on an empty queue). -/
def hubStep (maxFrames : Nat) (st : HubSub) (op : HubOp) : HubSub :=
  match op with
  | HubOp.offer =>
    let f : Frame := ⟨st.nextSeq, []⟩
    let q := if maxFrames ≤ st.queue.length then st.queue.tail ++ [f]
             else st.queue ++ [f]
    ⟨q, st.delivered, st.nextSeq + 1⟩
  | HubOp.read =>
    match st.queue with
    | [] => st
    | f :: rest => ⟨rest, st.delivered ++ [f], st.nextSeq⟩

/-- Running a subscriber from subscription time (empty queue, nothing
delivered) over an arbitrary interleaving of offers and reads. -/
def hubRun (maxFrames : Nat) (ops : List HubOp) : HubSub :=
  ops.foldl (hubStep maxFrames) ⟨[], [], 0⟩

/-- Hub invariant: the delivered frames followed by the queued frames
have strictly increasing sequence numbers, all below the producer's next
sequence. -/
def HubSub.Inv (st : HubSub) : Prop :=
  ((st.delivered ++ st.queue).map (fun f => f.sequence)).Pairwise (· < ·) ∧
  ∀ f ∈ st.delivered ++ st.queue, f.sequence < st.nextSeq

theorem hubStep_inv (m : Nat) (st : HubSub) (op : HubOp) (h : st.Inv) :
    (hubStep m st op).Inv := by
  obtain ⟨hpw, hlt⟩ := h
  cases op with
  | offer =>
    have hkeep : ∀ q2 : List Frame, q2.Sublist st.queue →
        ((st.delivered ++ (q2 ++ [(⟨st.nextSeq, []⟩ : Frame)])).map
          (fun f => f.sequence)).Pairwise (· < ·) ∧
        (∀ f ∈ st.delivered ++ (q2 ++ [(⟨st.nextSeq, []⟩ : Frame)]),
          f.sequence < st.nextSeq + 1) := by
      intro q2 hsub
      have hsub2 : (st.delivered ++ q2).Sublist (st.delivered ++ st.queue) :=
        List.Sublist.append_left hsub st.delivered
      have hpw2 : ((st.delivered ++ q2).map (fun f => f.sequence)).Pairwise (· < ·) :=
        List.Pairwise.sublist (List.Sublist.map _ hsub2) hpw
      constructor
      · rw [← List.append_assoc, List.map_append]
        rw [List.pairwise_append]
        refine ⟨hpw2, by simp, ?_⟩
        intro a ha b hb
        simp only [List.map_cons, List.map_nil, List.mem_cons, List.not_mem_nil,
          or_false] at hb
        subst hb
        simp only [List.mem_map] at ha
        obtain ⟨g, hg, hga⟩ := ha
        subst hga
        exact hlt g (hsub2.mem hg)
      · intro f hf
        rw [← List.append_assoc] at hf
        rcases List.mem_append.mp hf with hf | hf
        · exact Nat.lt_succ_of_lt (hlt f (hsub2.mem hf))
        · simp only [List.mem_cons, List.not_mem_nil, or_false] at hf
          subst hf
          exact Nat.lt_succ_self _
    unfold hubStep
    by_cases hfull : m ≤ st.queue.length
    · simpa [hfull, HubSub.Inv] using hkeep st.queue.tail (List.tail_sublist st.queue)
    · simpa [hfull, HubSub.Inv] using hkeep st.queue (List.Sublist.refl st.queue)
  | read =>
    unfold hubStep
    cases hq : st.queue with
    | nil => exact ⟨by simpa [hq] using hpw, by intro f hf; exact hlt f (by simpa [hq] using hf)⟩
    | cons f rest =>
      have hre : st.delivered ++ [f] ++ rest = st.delivered ++ st.queue := by
        rw [hq, List.append_assoc]
        rfl
      constructor
      · show (((st.delivered ++ [f]) ++ rest).map (fun g => g.sequence)).Pairwise (· < ·)
        rw [hre]
        exact hpw
      · intro g hg
        show g.sequence < st.nextSeq
        apply hlt
        rw [← hre]
        simpa using hg

theorem hubFold_inv (m : Nat) (ops : List HubOp) :
    ∀ st : HubSub, st.Inv → (ops.foldl (hubStep m) st).Inv := by
  induction ops with
  | nil =>
    intro st h
    exact h
  | cons op rest ih =>
    intro st h
    exact ih (hubStep m st op) (hubStep_inv m st op h)

theorem hubRun_inv (m : Nat) (ops : List HubOp) : (hubRun m ops).Inv := by
  apply hubFold_inv
  constructor
  · simp
  · intro f hf
    simp at hf

/-- C6: for any interleaving of fan-outs and reads, the frames delivered
to a subscriber are in strictly increasing `sequence` order — for frames
at delivery positions `i` and `j`, the sequence increases exactly when
`i` precedes `j`.  Gaps arise when offers evict queued frames, and are
allowed. -/
theorem hub_subscriber_ordering (m : Nat) (ops : List HubOp)
    (i j : Nat) (hi : i < (hubRun m ops).delivered.length)
    (hj : j < (hubRun m ops).delivered.length) :
    (((hubRun m ops).delivered.get ⟨i, hi⟩).sequence <
        ((hubRun m ops).delivered.get ⟨j, hj⟩).sequence) ↔ i < j := by
  have hpw := (hubRun_inv m ops).1
  rw [List.map_append, List.pairwise_append] at hpw
  have hpd : (((hubRun m ops).delivered.map (fun f => f.sequence))).Pairwise (· < ·) :=
    hpw.1
  have hmono : ∀ (a b : Nat) (ha : a < (hubRun m ops).delivered.length)
      (hb : b < (hubRun m ops).delivered.length), a < b →
      ((hubRun m ops).delivered.get ⟨a, ha⟩).sequence <
        ((hubRun m ops).delivered.get ⟨b, hb⟩).sequence := by
    intro a b ha hb hab
    have h1 := List.pairwise_iff_get.mp hpd ⟨a, by simpa using ha⟩
      ⟨b, by simpa using hb⟩ (by simpa using hab)
    simpa [List.get_map] using h1
  constructor
  · intro hlt2
    by_contra hnot
    push_neg at hnot
    rcases Nat.lt_or_eq_of_le hnot with hj2 | hj2
    · have := hmono j i hj hi hj2
      omega
    · subst hj2
      omega
  · exact hmono i j hi hj

/-- Applying C6 at a concrete interleaving (capacity 2, three offers then
two reads — the oldest frame is dropped): the two delivered frames carry
increasing sequences. -/
theorem hub_subscriber_ordering_witness :
    ((hubRun 2 [HubOp.offer, HubOp.offer, HubOp.offer, HubOp.read,
        HubOp.read]).delivered.get ⟨0, by decide⟩).sequence <
      ((hubRun 2 [HubOp.offer, HubOp.offer, HubOp.offer, HubOp.read,
        HubOp.read]).delivered.get ⟨1, by decide⟩).sequence :=
  (hub_subscriber_ordering 2 [HubOp.offer, HubOp.offer, HubOp.offer,
    HubOp.read, HubOp.read] 0 1 (by decide) (by decide)).mpr (by decide)
